import Mathlib

/-!
Shallow embedding of the diff renderer (`renderDiff` and its helpers) from
`src/unnamed/part_000`.  JavaScript strings are modelled as `List Char`.
The external collaborators (the word-level diff `Diff.diffWords`, the syntax
highlighter `highlightCode`, the path-to-language resolver
`getLanguageFromPath`, and the styling functions `theme.fg` / `theme.inverse`)
live outside `src/`; they are passed as parameters or modelled abstractly,
following the spec's collaborator contracts (styling wraps text without
altering the visible characters).
-/

/-- Modelled from the spec: the theme color names used by the renderer
(`toolDiffContext`, `toolDiffRemoved`, `toolDiffAdded`); `theme` itself is an
external collaborator outside `src/`. -/
inductive ColorName where
  | toolDiffContext
  | toolDiffRemoved
  | toolDiffAdded
deriving DecidableEq

/-- Modelled from the spec: styled terminal text.  `theme.fg` and
`theme.inverse` are external styling functions that only change presentation,
never the visible characters, so they are modelled as constructors; string
concatenation is `app`. -/
inductive Styled where
  | str (text : List Char)
  | inverse (s : Styled)
  | fg (color : ColorName) (s : Styled)
  | app (a b : Styled)
deriving DecidableEq

/-- Modelled from the spec: stripping all styling (category colors and
inversion markers) from styled text, leaving the visible characters. -/
def strip : Styled → List Char
  | .str t => t
  | .inverse s => strip s
  | .fg _ s => strip s
  | .app a b => strip a ++ strip b

/-- JavaScript regex class `\s` (the whitespace characters), by code point. -/
def jsWs (c : Char) : Bool :=
  c.toNat = 32 || c.toNat = 9 || c.toNat = 10 || c.toNat = 11 || c.toNat = 12 ||
  c.toNat = 13 || c.toNat = 160 || c.toNat = 5760 ||
  (8192 ≤ c.toNat && c.toNat ≤ 8202) || c.toNat = 8232 || c.toNat = 8233 ||
  c.toNat = 8239 || c.toNat = 8287 || c.toNat = 12288 || c.toNat = 65279

/-- JavaScript regex class `\d` (the decimal digits), by code point. -/
def jsDigit (c : Char) : Bool :=
  48 ≤ c.toNat && c.toNat ≤ 57

/-- JavaScript regex `.` (without the dotAll flag) matches every character
except the four line terminators; `jsDotOk c` says `.` matches `c`. -/
def jsDotOk (c : Char) : Bool :=
  !(c.toNat = 10 || c.toNat = 13 || c.toNat = 8232 || c.toNat = 8233)

/-- The character class `[+-\s]` of the line pattern in `parseDiffLine`
(`src/unnamed/part_000` line 9): a literal `+`, a literal `-`, or any
whitespace character. -/
def isMarkerChar (c : Char) : Bool :=
  c = '+' || c = '-' || jsWs c

/-- Result of `parseDiffLine` (`src/unnamed/part_000` lines 8-12): the matched
marker character (source field `prefix`), the line-number token, and the
content. -/
structure ParsedLine where
  marker : Char
  lineNum : List Char
  content : List Char
deriving DecidableEq

/-- The backtracking fallback of the regex `^([+-\s])(\s*\d*)\s(.*)$`: when
the greedy split (maximal `\s*` run `w`, then maximal `\d*` run) is not
followed by a whitespace separator with a line-terminator-free remainder, the
engine shrinks `\s*` by one character, the shrunk `\d*` is forced empty (the
character there is whitespace), the last whitespace character of `w` becomes
the separator, and `.*$` must match the rest of the string `s` after `w`.
Shrinking `\s*` further only enlarges that rest, so the first candidate is the
only one that can succeed. -/
def parseFallback (c : Char) (w s : List Char) : Option ParsedLine :=
  if w.isEmpty then none
  else if (s.drop w.length).all jsDotOk then
    some ⟨c, w.dropLast, s.drop w.length⟩
  else none

/-- `parseDiffLine` (`src/unnamed/part_000` lines 8-12): match the line
against `/^([+-\s])(\s*\d*)\s(.*)$/` and return
`{ prefix := match 1, lineNum := match 2, content := match 3 }`, or `none`
when the regex does not match.  The match semantics (greedy runs plus the
backtracking fallback) are spelled out in `parseFallback`. -/
def parseDiffLine (line : List Char) : Option ParsedLine :=
  match line with
  | [] => none
  | c :: s =>
    if isMarkerChar c then
      let w := s.takeWhile jsWs
      let d := (s.dropWhile jsWs).takeWhile jsDigit
      match (s.dropWhile jsWs).dropWhile jsDigit with
      | sep :: content =>
        if jsWs sep && content.all jsDotOk then some ⟨c, w ++ d, content⟩
        else parseFallback c w s
      | [] => parseFallback c w s
    else none

/-- `replaceTabs` (`src/unnamed/part_000` lines 27-29): replace every
occurrence of the literal two-character sequence backslash-`t` with three
spaces (`text.replace(/\\t/g, "   ")`, left-to-right, non-overlapping). -/
def replaceTabs : List Char → List Char
  | [] => []
  | '\\' :: 't' :: rest => ' ' :: ' ' :: ' ' :: replaceTabs rest
  | c :: rest => c :: replaceTabs rest

/-- Kind of one word-diff segment, from the `removed` / `added` booleans on
the parts returned by the external `Diff.diffWords`. -/
inductive PartKind where
  | unchanged
  | removedOnly
  | addedOnly
deriving DecidableEq

/-- One segment of the word-level diff produced by the external
`Diff.diffWords` collaborator (`part.value` with its `removed`/`added`
flags). -/
structure WordDiffPart where
  kind : PartKind
  text : List Char
deriving DecidableEq

/-- The pre-change text of a word diff: the concatenation, in order, of the
parts with kind `unchanged` or `removedOnly` (the invariant stated by the
spec for the external word-level diff). -/
def oldText (parts : List WordDiffPart) : List Char :=
  parts.foldr (fun p acc => (if p.kind = .addedOnly then [] else p.text) ++ acc) []

/-- The post-change text of a word diff: the concatenation, in order, of the
parts with kind `unchanged` or `addedOnly`. -/
def newText (parts : List WordDiffPart) : List Char :=
  parts.foldr (fun p acc => (if p.kind = .removedOnly then [] else p.text) ++ acc) []

/-- A syntax-highlighting language identifier (opaque string). -/
abbrev Lang := List Char

/-- Signature of the external `highlightCode` collaborator
(`../theme/theme.js`): styled lines for one piece of text and a language. -/
abbrev HlFn := List Char → Lang → List Styled

/-- Signature of the external word-level diff collaborator
(`Diff.diffWords`). -/
abbrev WordDiffFn := List Char → List Char → List WordDiffPart

/-- `highlightLine` (`src/unnamed/part_000` lines 18-22): return the first
highlighted line, falling back to the plain content when the language is
absent (JavaScript falsiness: `undefined` or the empty string) or the
highlighter returns no line (`lines[0] ?? content`). -/
def highlightLine (hl : HlFn) (content : List Char) (lang : Option Lang) : Styled :=
  match lang with
  | none => .str content
  | some l =>
    if l.isEmpty then .str content
    else
      match hl content l with
      | [] => .str content
      | s :: _ => s

/-- The language resolution in `renderDiff` (`src/unnamed/part_000` line 92):
`options.filePath ? getLanguageFromPath(options.filePath) : undefined`, with
JavaScript falsiness of the empty path string. -/
def resolveLang (getLanguageFromPath : List Char → Option Lang)
    (filePath : Option (List Char)) : Option Lang :=
  match filePath with
  | none => none
  | some p => if p.isEmpty then none else getLanguageFromPath p

/-- Accumulator of the loop in `renderIntraLineDiff`
(`src/unnamed/part_000` lines 39-42): the two output strings and the two
first-part flags. -/
structure IntraState where
  removedLine : Styled
  addedLine : Styled
  isFirstRemoved : Bool
  isFirstAdded : Bool
deriving DecidableEq

/-- One iteration of the loop body of `renderIntraLineDiff`
(`src/unnamed/part_000` lines 44-73): on a removed part, strip the leading
whitespace run when it is the first removed part (appending the stripped
whitespace unhighlighted) and append the remaining text wrapped in
`theme.inverse` when non-empty; symmetrically for added parts; unchanged
parts are appended verbatim to both lines. -/
def intraStep (st : IntraState) (part : WordDiffPart) : IntraState :=
  match part.kind with
  | .removedOnly =>
    if st.isFirstRemoved then
      let leadingWs := part.text.takeWhile jsWs
      let value := part.text.dropWhile jsWs
      let withWs := Styled.app st.removedLine (.str leadingWs)
      { st with
        removedLine := if value.isEmpty then withWs else .app withWs (.inverse (.str value)),
        isFirstRemoved := false }
    else
      { st with
        removedLine :=
          if part.text.isEmpty then st.removedLine
          else .app st.removedLine (.inverse (.str part.text)) }
  | .addedOnly =>
    if st.isFirstAdded then
      let leadingWs := part.text.takeWhile jsWs
      let value := part.text.dropWhile jsWs
      let withWs := Styled.app st.addedLine (.str leadingWs)
      { st with
        addedLine := if value.isEmpty then withWs else .app withWs (.inverse (.str value)),
        isFirstAdded := false }
    else
      { st with
        addedLine :=
          if part.text.isEmpty then st.addedLine
          else .app st.addedLine (.inverse (.str part.text)) }
  | .unchanged =>
    { st with
      removedLine := .app st.removedLine (.str part.text),
      addedLine := .app st.addedLine (.str part.text) }

/-- `renderIntraLineDiff` (`src/unnamed/part_000` lines 36-76): run the
external word diff on the two contents and fold the loop body over its parts,
returning `(removedLine, addedLine)`. -/
def renderIntraLineDiff (wordDiff : WordDiffFn) (oldContent newContent : List Char) :
    Styled × Styled :=
  let st := (wordDiff oldContent newContent).foldl intraStep
    ⟨.str [], .str [], true, true⟩
  (st.removedLine, st.addedLine)

/-- One collected run element in `renderDiff`
(`src/unnamed/part_000` lines 107 and 116): the line-number token and content
pushed by the run-collection loops. -/
structure Entry where
  lineNum : List Char
  content : List Char
deriving DecidableEq

/-- The run-collection loops of `renderDiff`
(`src/unnamed/part_000` lines 108-122): consume lines from the front while
they parse with the given marker, returning the collected entries and the
remaining lines. -/
def collectRun (c : Char) : List (List Char) → List Entry × List (List Char)
  | [] => ([], [])
  | line :: rest =>
    match parseDiffLine line with
    | some p =>
      if p.marker = c then
        let r := collectRun c rest
        (⟨p.lineNum, p.content⟩ :: r.1, r.2)
      else ([], line :: rest)
    | none => ([], line :: rest)

/-- A raw (unparseable) line in `renderDiff` (`src/unnamed/part_000`
line 98): `theme.fg("toolDiffContext", line)`. -/
def renderRawLine (line : List Char) : Styled :=
  .fg .toolDiffContext (.str line)

/-- A block-mode removed line (`src/unnamed/part_000` lines 140-144). -/
def renderRemovedBlock (hl : HlFn) (lang : Option Lang) (e : Entry) : Styled :=
  .app (.fg .toolDiffRemoved (.str ('-' :: e.lineNum)))
    (.app (.str [' ']) (highlightLine hl (replaceTabs e.content) lang))

/-- A block-mode added line (`src/unnamed/part_000` lines 145-149). -/
def renderAddedBlock (hl : HlFn) (lang : Option Lang) (e : Entry) : Styled :=
  .app (.fg .toolDiffAdded (.str ('+' :: e.lineNum)))
    (.app (.str [' ']) (highlightLine hl (replaceTabs e.content) lang))

/-- A standalone added line (`src/unnamed/part_000` lines 151-156). -/
def renderAddedLine (hl : HlFn) (lang : Option Lang) (p : ParsedLine) : Styled :=
  .app (.fg .toolDiffAdded (.str ('+' :: p.lineNum)))
    (.app (.str [' ']) (highlightLine hl (replaceTabs p.content) lang))

/-- A context line (`src/unnamed/part_000` lines 157-163): note the emitted
prefix starts with a literal space, whatever whitespace character was the
original marker. -/
def renderContextLine (hl : HlFn) (lang : Option Lang) (p : ParsedLine) : Styled :=
  .app (.fg .toolDiffContext (.str (' ' :: p.lineNum)))
    (.app (.str [' ']) (highlightLine hl (replaceTabs p.content) lang))

/-- The removed/added group rendering of `renderDiff`
(`src/unnamed/part_000` lines 124-150): intra-line mode exactly when there is
one removed and one added line (`removedLines.length === 1 &&
addedLines.length === 1`), otherwise block mode (all removed lines first,
then all added lines). -/
def renderGroup (wordDiff : WordDiffFn) (hl : HlFn) (lang : Option Lang)
    (removedLines addedLines : List Entry) : List Styled :=
  match removedLines, addedLines with
  | [r], [a] =>
    let res := renderIntraLineDiff wordDiff (replaceTabs r.content) (replaceTabs a.content)
    [.fg .toolDiffRemoved (.app (.str (('-' :: r.lineNum) ++ [' '])) res.1),
     .fg .toolDiffAdded (.app (.str (('+' :: a.lineNum) ++ [' '])) res.2)]
  | rs, ads => rs.map (renderRemovedBlock hl lang) ++ ads.map (renderAddedBlock hl lang)

/-- The main loop of `renderDiff` (`src/unnamed/part_000` lines 94-166),
over the already-split lines: raw lines pass through context-styled; a
removed line starts group collection (the collection loop re-parses the
current line, which is known to parse with marker `-`); a standalone added
or context line renders on its own. -/
def renderDiffLines (wordDiff : WordDiffFn) (hl : HlFn) (lang : Option Lang) :
    List (List Char) → List Styled
  | [] => []
  | line :: rest =>
    match parseDiffLine line with
    | none => renderRawLine line :: renderDiffLines wordDiff hl lang rest
    | some p =>
      if p.marker = '-' then
        let rem := collectRun '-' rest
        let ads := collectRun '+' rem.2
        renderGroup wordDiff hl lang (⟨p.lineNum, p.content⟩ :: rem.1) ads.1
          ++ renderDiffLines wordDiff hl lang ads.2
      else if p.marker = '+' then
        renderAddedLine hl lang p :: renderDiffLines wordDiff hl lang rest
      else
        renderContextLine hl lang p :: renderDiffLines wordDiff hl lang rest
termination_by ls => ls.length
decreasing_by
  all_goals simp only [List.length_cons]
  all_goals
    have key : ∀ (c : Char) (ls : List (List Char)),
        (collectRun c ls).2.length ≤ ls.length := by
      intro c ls
      induction ls with
      | nil => simp [collectRun]
      | cons l₀ r₀ ih =>
        simp only [collectRun]
        cases parseDiffLine l₀ with
        | none => simp
        | some p =>
          by_cases hm : p.marker = c
          · simpa [hm] using Nat.le_succ_of_le ih
          · simp [hm]
  all_goals have h1 := key '+' (collectRun '-' rest).2
  all_goals have h2 := key '-' rest
  all_goals omega

/-- JavaScript `diffText.split("\n")` (`src/unnamed/part_000` line 90):
splitting on every newline; the empty string yields one empty line. -/
def splitLines : List Char → List (List Char)
  | [] => [[]]
  | c :: rest =>
    if c = '\n' then [] :: splitLines rest
    else
      match splitLines rest with
      | [] => [[c]]
      | l :: ls => (c :: l) :: ls

/-- JavaScript `result.join("\n")` (`src/unnamed/part_000` line 167) on
styled lines. -/
def joinNl : List Styled → Styled
  | [] => .str []
  | [s] => s
  | s :: rest => .app (.app s (.str ['\n'])) (joinNl rest)

/-- `renderDiff` (`src/unnamed/part_000` lines 89-168): split the input on
newlines, resolve the highlighting language from the optional file path, run
the main loop, and join the rendered lines with newlines. -/
def renderDiff (wordDiff : WordDiffFn) (hl : HlFn)
    (getLanguageFromPath : List Char → Option Lang) (filePath : Option (List Char))
    (diffText : List Char) : Styled :=
  joinNl (renderDiffLines wordDiff hl (resolveLang getLanguageFromPath filePath)
    (splitLines diffText))

/-- A concrete word-diff collaborator instance (used to discharge hypotheses
at concrete inputs): one removed part followed by one added part.  It
satisfies the word-diff invariant. -/
def wdSwap : WordDiffFn := fun o n => [⟨.removedOnly, o⟩, ⟨.addedOnly, n⟩]

/-- A concrete highlighter collaborator instance that always returns no
lines. -/
def hlEmpty : HlFn := fun _ _ => []

theorem strip_str (t : List Char) : strip (.str t) = t := rfl

theorem strip_inverse (s : Styled) : strip (.inverse s) = strip s := rfl

theorem strip_fg (c : ColorName) (s : Styled) : strip (.fg c s) = strip s := rfl

theorem strip_app (a b : Styled) : strip (.app a b) = strip a ++ strip b := rfl

theorem oldText_nil : oldText [] = [] := rfl

theorem oldText_cons (p : WordDiffPart) (ps : List WordDiffPart) :
    oldText (p :: ps) = (if p.kind = .addedOnly then [] else p.text) ++ oldText ps := rfl

theorem newText_nil : newText [] = [] := rfl

theorem newText_cons (p : WordDiffPart) (ps : List WordDiffPart) :
    newText (p :: ps) = (if p.kind = .removedOnly then [] else p.text) ++ newText ps := rfl

theorem strip_intraStep_removed (st : IntraState) (p : WordDiffPart) :
    strip (intraStep st p).removedLine =
      strip st.removedLine ++ (if p.kind = .addedOnly then [] else p.text) := by
  obtain ⟨k, t⟩ := p
  have hsplit := List.takeWhile_append_dropWhile (p := jsWs) (l := t)
  cases k with
  | unchanged => simp [intraStep, strip_app, strip_str]
  | addedOnly =>
    by_cases hf : st.isFirstAdded <;>
      by_cases he : (t.dropWhile jsWs).isEmpty <;>
        by_cases he' : t.isEmpty <;>
          simp [intraStep, hf, he, he', strip_app, strip_str]
  | removedOnly =>
    by_cases hf : st.isFirstRemoved
    · by_cases he : (t.dropWhile jsWs).isEmpty
      · have : t.takeWhile jsWs = t := by
          rw [List.isEmpty_iff] at he
          simpa [he] using hsplit
        simp [intraStep, hf, he, strip_app, strip_str, strip_inverse, this]
      · simp [intraStep, hf, he, strip_app, strip_str, strip_inverse,
          List.append_assoc, hsplit]
    · by_cases he : t.isEmpty
      · rw [List.isEmpty_iff] at he
        simp [intraStep, hf, he, strip_app, strip_str]
      · simp [intraStep, hf, he, strip_app, strip_str, strip_inverse]

theorem strip_intraStep_added (st : IntraState) (p : WordDiffPart) :
    strip (intraStep st p).addedLine =
      strip st.addedLine ++ (if p.kind = .removedOnly then [] else p.text) := by
  obtain ⟨k, t⟩ := p
  have hsplit := List.takeWhile_append_dropWhile (p := jsWs) (l := t)
  cases k with
  | unchanged => simp [intraStep, strip_app, strip_str]
  | removedOnly =>
    by_cases hf : st.isFirstRemoved <;>
      by_cases he : (t.dropWhile jsWs).isEmpty <;>
        by_cases he' : t.isEmpty <;>
          simp [intraStep, hf, he, he', strip_app, strip_str]
  | addedOnly =>
    by_cases hf : st.isFirstAdded
    · by_cases he : (t.dropWhile jsWs).isEmpty
      · have : t.takeWhile jsWs = t := by
          rw [List.isEmpty_iff] at he
          simpa [he] using hsplit
        simp [intraStep, hf, he, strip_app, strip_str, strip_inverse, this]
      · simp [intraStep, hf, he, strip_app, strip_str, strip_inverse,
          List.append_assoc, hsplit]
    · by_cases he : t.isEmpty
      · rw [List.isEmpty_iff] at he
        simp [intraStep, hf, he, strip_app, strip_str]
      · simp [intraStep, hf, he, strip_app, strip_str, strip_inverse]

theorem strip_foldl_intraStep (parts : List WordDiffPart) (st : IntraState) :
    strip (parts.foldl intraStep st).removedLine = strip st.removedLine ++ oldText parts ∧
    strip (parts.foldl intraStep st).addedLine = strip st.addedLine ++ newText parts := by
  induction parts generalizing st with
  | nil => simp [oldText_nil, newText_nil]
  | cons p ps ih =>
    obtain ⟨ih1, ih2⟩ := ih (intraStep st p)
    refine ⟨?_, ?_⟩
    · rw [List.foldl_cons, ih1, strip_intraStep_removed, oldText_cons, List.append_assoc]
    · rw [List.foldl_cons, ih2, strip_intraStep_added, newText_cons, List.append_assoc]

/-- Claim C1: assuming the external word-level diff satisfies its invariant
(the unchanged and removed-only parts concatenate to the old text, the
unchanged and added-only parts to the new text), stripping all styling from
the `removedLine` produced by `renderIntraLineDiff` yields exactly the
removed content, and stripping the `addedLine` yields exactly the added
content. -/
theorem c1_intra_reconstruction (wordDiff : WordDiffFn) (oldContent newContent : List Char)
    (hOld : oldText (wordDiff oldContent newContent) = oldContent)
    (hNew : newText (wordDiff oldContent newContent) = newContent) :
    strip (renderIntraLineDiff wordDiff oldContent newContent).1 = oldContent ∧
    strip (renderIntraLineDiff wordDiff oldContent newContent).2 = newContent := by
  have h := strip_foldl_intraStep (wordDiff oldContent newContent)
    ⟨.str [], .str [], true, true⟩
  simpa [renderIntraLineDiff, strip_str, hOld, hNew] using h

/-- Witness for C1 at a concrete word diff and concrete contents. -/
theorem c1_intra_reconstruction_witness :
    strip (renderIntraLineDiff wdSwap ("ab".data) ("cd".data)).1 = "ab".data ∧
    strip (renderIntraLineDiff wdSwap ("ab".data) ("cd".data)).2 = "cd".data :=
  c1_intra_reconstruction wdSwap ("ab".data) ("cd".data) (by decide) (by decide)

theorem intraStep_removed_clears_flag (st : IntraState) (p : WordDiffPart)
    (hk : p.kind = .removedOnly) : (intraStep st p).isFirstRemoved = false := by
  obtain ⟨k, t⟩ := p
  cases hk
  by_cases hf : st.isFirstRemoved <;> simp [intraStep, hf]

theorem intraStep_added_clears_flag (st : IntraState) (p : WordDiffPart)
    (hk : p.kind = .addedOnly) : (intraStep st p).isFirstAdded = false := by
  obtain ⟨k, t⟩ := p
  cases hk
  by_cases hf : st.isFirstAdded <;> simp [intraStep, hf]

theorem intraStep_isFirstRemoved_mono (st : IntraState) (p : WordDiffPart)
    (h : st.isFirstRemoved = false) : (intraStep st p).isFirstRemoved = false := by
  obtain ⟨k, t⟩ := p
  cases k <;> by_cases hf : st.isFirstAdded <;> simp [intraStep, h, hf]

theorem intraStep_isFirstAdded_mono (st : IntraState) (p : WordDiffPart)
    (h : st.isFirstAdded = false) : (intraStep st p).isFirstAdded = false := by
  obtain ⟨k, t⟩ := p
  cases k <;> by_cases hf : st.isFirstRemoved <;> simp [intraStep, h, hf]

theorem foldl_intraStep_isFirstRemoved_false (parts : List WordDiffPart) (st : IntraState)
    (h : st.isFirstRemoved = false) :
    (parts.foldl intraStep st).isFirstRemoved = false := by
  induction parts generalizing st with
  | nil => exact h
  | cons p ps ih => exact ih _ (intraStep_isFirstRemoved_mono st p h)

theorem foldl_intraStep_isFirstAdded_false (parts : List WordDiffPart) (st : IntraState)
    (h : st.isFirstAdded = false) :
    (parts.foldl intraStep st).isFirstAdded = false := by
  induction parts generalizing st with
  | nil => exact h
  | cons p ps ih => exact ih _ (intraStep_isFirstAdded_mono st p h)

/-- Claim C3: leading-whitespace stripping happens exactly once per side in
the intra-line highlighter: a removed-only part clears the first-removed flag
even when it has no leading whitespace (and likewise on the added side);
unchanged and added-only parts leave the removed-side flag alone (the flag is
global to the walk, not per-line-start); while the flag is set, the part's
leading whitespace run is appended unhighlighted and the remainder is
appended highlighted only when non-empty; once the flag is cleared, every
later differing part on that side is highlighted in full, internal whitespace
included. -/
theorem c3_leading_ws_once :
    (∀ st p, p.kind = .removedOnly → (intraStep st p).isFirstRemoved = false) ∧
    (∀ st p, p.kind = .addedOnly → (intraStep st p).isFirstAdded = false) ∧
    (∀ st p, p.kind ≠ .removedOnly → (intraStep st p).isFirstRemoved = st.isFirstRemoved) ∧
    (∀ st p, p.kind ≠ .addedOnly → (intraStep st p).isFirstAdded = st.isFirstAdded) ∧
    (∀ st p, p.kind = .removedOnly → st.isFirstRemoved = true →
       (intraStep st p).removedLine =
         (if (p.text.dropWhile jsWs).isEmpty then
            Styled.app st.removedLine (.str (p.text.takeWhile jsWs))
          else
            Styled.app (.app st.removedLine (.str (p.text.takeWhile jsWs)))
              (.inverse (.str (p.text.dropWhile jsWs))))) ∧
    (∀ st p, p.kind = .addedOnly → st.isFirstAdded = true →
       (intraStep st p).addedLine =
         (if (p.text.dropWhile jsWs).isEmpty then
            Styled.app st.addedLine (.str (p.text.takeWhile jsWs))
          else
            Styled.app (.app st.addedLine (.str (p.text.takeWhile jsWs)))
              (.inverse (.str (p.text.dropWhile jsWs))))) ∧
    (∀ st p, p.kind = .removedOnly → st.isFirstRemoved = false →
       (intraStep st p).removedLine =
         (if p.text.isEmpty then st.removedLine
          else .app st.removedLine (.inverse (.str p.text)))) ∧
    (∀ st p, p.kind = .addedOnly → st.isFirstAdded = false →
       (intraStep st p).addedLine =
         (if p.text.isEmpty then st.addedLine
          else .app st.addedLine (.inverse (.str p.text)))) ∧
    (∀ (parts : List WordDiffPart) st p, p ∈ parts → p.kind = .removedOnly →
       (parts.foldl intraStep st).isFirstRemoved = false) ∧
    (∀ (parts : List WordDiffPart) st p, p ∈ parts → p.kind = .addedOnly →
       (parts.foldl intraStep st).isFirstAdded = false) := by
  refine ⟨intraStep_removed_clears_flag, intraStep_added_clears_flag, ?_, ?_, ?_, ?_, ?_, ?_, ?_, ?_⟩
  · intro st p hk
    obtain ⟨k, t⟩ := p
    cases k <;> simp at hk <;>
      by_cases hf : st.isFirstAdded <;> simp [intraStep, hf]
  · intro st p hk
    obtain ⟨k, t⟩ := p
    cases k <;> simp at hk <;>
      by_cases hf : st.isFirstRemoved <;> simp [intraStep, hf]
  · intro st p hk hf
    obtain ⟨k, t⟩ := p
    cases hk
    simp [intraStep, hf]
  · intro st p hk hf
    obtain ⟨k, t⟩ := p
    cases hk
    simp [intraStep, hf]
  · intro st p hk hf
    obtain ⟨k, t⟩ := p
    cases hk
    simp [intraStep, hf]
  · intro st p hk hf
    obtain ⟨k, t⟩ := p
    cases hk
    simp [intraStep, hf]
  · intro parts st p hmem hk
    induction parts generalizing st with
    | nil => cases hmem
    | cons q qs ih =>
      rcases List.mem_cons.mp hmem with rfl | hmem'
      · exact foldl_intraStep_isFirstRemoved_false qs _
          (intraStep_removed_clears_flag st p hk)
      · exact ih _ hmem'
  · intro parts st p hmem hk
    induction parts generalizing st with
    | nil => cases hmem
    | cons q qs ih =>
      rcases List.mem_cons.mp hmem with rfl | hmem'
      · exact foldl_intraStep_isFirstAdded_false qs _
          (intraStep_added_clears_flag st p hk)
      · exact ih _ hmem'

/-- Witness for C3: a removed-only part with no leading whitespace still
clears the first-removed flag. -/
theorem c3_leading_ws_once_witness :
    (intraStep ⟨.str [], .str [], true, true⟩ ⟨.removedOnly, "x y".data⟩).isFirstRemoved = false :=
  c3_leading_ws_once.1 ⟨.str [], .str [], true, true⟩ ⟨.removedOnly, "x y".data⟩ rfl

theorem replaceTabs_cons_ne (c : Char) (rest : List Char) (h : c ≠ '\\') :
    replaceTabs (c :: rest) = c :: replaceTabs rest := by
  cases rest with
  | nil => simp [replaceTabs, h]
  | cons c2 r2 =>
    by_cases h2 : c2 = 't' <;> simp [replaceTabs, h, h2]

/-- Claim C7: before any word-level diffing or syntax highlighting, every
occurrence of the literal two-character backslash-`t` sequence in a parsed
content is replaced by exactly three spaces, while actual tab control
characters are left unchanged: `replaceTabs` rewrites a leading escape to
three spaces, passes a leading tab character through, is the identity on
backslash-free text, and the group renderer and context renderer feed
`replaceTabs` output into the word diff and the highlighter. -/
theorem c7_tab_escape_substitution (wordDiff : WordDiffFn) (hl : HlFn) (lang : Option Lang) :
    (∀ r, replaceTabs ('\\' :: 't' :: r) = ' ' :: ' ' :: ' ' :: replaceTabs r) ∧
    (∀ r, replaceTabs ('\t' :: r) = '\t' :: replaceTabs r) ∧
    (∀ s, (∀ c ∈ s, c ≠ '\\') → replaceTabs s = s) ∧
    (∀ r a : Entry, renderGroup wordDiff hl lang [r] [a] =
       [.fg .toolDiffRemoved (.app (.str (('-' :: r.lineNum) ++ [' ']))
           (renderIntraLineDiff wordDiff (replaceTabs r.content) (replaceTabs a.content)).1),
        .fg .toolDiffAdded (.app (.str (('+' :: a.lineNum) ++ [' ']))
           (renderIntraLineDiff wordDiff (replaceTabs r.content) (replaceTabs a.content)).2)]) ∧
    (∀ p : ParsedLine, renderContextLine hl lang p =
       .app (.fg .toolDiffContext (.str (' ' :: p.lineNum)))
         (.app (.str [' ']) (highlightLine hl (replaceTabs p.content) lang))) := by
  refine ⟨fun r => rfl, ?_, ?_, fun r a => rfl, fun p => rfl⟩
  · intro r
    exact replaceTabs_cons_ne '\t' r (by decide)
  · intro s hs
    induction s with
    | nil => rfl
    | cons c cs ih =>
      rw [replaceTabs_cons_ne c cs (hs c (List.mem_cons_self c cs))]
      rw [ih (fun x hx => hs x (List.mem_cons_of_mem c hx))]

/-- Witness for C7: text without backslashes, including a real tab control
character, is left unchanged. -/
theorem c7_tab_escape_substitution_witness :
    replaceTabs ("a\tb".data) = "a\tb".data :=
  (c7_tab_escape_substitution wdSwap hlEmpty none).2.2.1 ("a\tb".data) (by decide)

theorem collectRun_snd_drop (c : Char) (ls : List (List Char)) :
    (collectRun c ls).2 = ls.drop (collectRun c ls).1.length := by
  induction ls with
  | nil => rfl
  | cons line rest ih =>
    simp only [collectRun]
    cases hp : parseDiffLine line with
    | none => simp
    | some p =>
      by_cases hm : p.marker = c
      · simpa [hm] using ih
      · simp [hm]

theorem collectRun_length (c : Char) (ls : List (List Char)) :
    (collectRun c ls).1.length + (collectRun c ls).2.length = ls.length := by
  induction ls with
  | nil => rfl
  | cons line rest ih =>
    simp only [collectRun]
    cases hp : parseDiffLine line with
    | none => simp
    | some p =>
      by_cases hm : p.marker = c
      · simp only [hm, if_true, List.length_cons]
        simp only [List.length_cons] at ih ⊢
        omega
      · simp [hm]

theorem collectRun_snd_length_le (c : Char) (ls : List (List Char)) :
    (collectRun c ls).2.length ≤ ls.length := by
  have h := collectRun_length c ls
  omega

theorem collectRun_take_marker (c : Char) (ls : List (List Char)) :
    ∀ l ∈ ls.take (collectRun c ls).1.length,
      ∃ p, parseDiffLine l = some p ∧ p.marker = c := by
  induction ls with
  | nil => intro l hl; simp at hl
  | cons line rest ih =>
    intro l hl
    simp only [collectRun] at hl
    cases hp : parseDiffLine line with
    | none => rw [hp] at hl; simp at hl
    | some p =>
      rw [hp] at hl
      by_cases hm : p.marker = c
      · simp only [hm, if_true, List.length_cons, List.take_succ_cons,
          List.mem_cons] at hl
        rcases hl with rfl | hl'
        · exact ⟨p, hp, hm⟩
        · exact ih l hl'
      · simp [hm] at hl

theorem collectRun_snd_head_not_marker (c : Char) (ls : List (List Char))
    (l : List Char) (ls' : List (List Char)) (h : (collectRun c ls).2 = l :: ls')
    (p : ParsedLine) (hp : parseDiffLine l = some p) : p.marker ≠ c := by
  induction ls with
  | nil => simp [collectRun] at h
  | cons line rest ih =>
    simp only [collectRun] at h
    cases hq : parseDiffLine line with
    | none =>
      rw [hq] at h
      simp only at h
      obtain ⟨rfl, rfl⟩ := List.cons.injEq line rest l ls' ▸ h
      rw [hp] at hq
      cases hq
    | some q =>
      rw [hq] at h
      by_cases hm : q.marker = c
      · simp only [hm, if_true] at h
        exact ih h
      · simp only [hm, if_false] at h
        obtain ⟨rfl, rfl⟩ := List.cons.injEq line rest l ls' ▸ h
        rw [hq] at hp
        cases hp
        exact hm

theorem renderDiffLines_nil (wd : WordDiffFn) (hl : HlFn) (lg : Option Lang) :
    renderDiffLines wd hl lg [] = [] := by
  simp [renderDiffLines]

theorem renderDiffLines_raw (wd : WordDiffFn) (hl : HlFn) (lg : Option Lang)
    (line : List Char) (rest : List (List Char)) (h : parseDiffLine line = none) :
    renderDiffLines wd hl lg (line :: rest) =
      renderRawLine line :: renderDiffLines wd hl lg rest := by
  simp only [renderDiffLines]
  rw [h]

theorem renderDiffLines_removed (wd : WordDiffFn) (hl : HlFn) (lg : Option Lang)
    (line : List Char) (rest : List (List Char)) (p : ParsedLine)
    (h : parseDiffLine line = some p) (hm : p.marker = '-') :
    renderDiffLines wd hl lg (line :: rest) =
      renderGroup wd hl lg (⟨p.lineNum, p.content⟩ :: (collectRun '-' rest).1)
        (collectRun '+' (collectRun '-' rest).2).1 ++
      renderDiffLines wd hl lg (collectRun '+' (collectRun '-' rest).2).2 := by
  simp only [renderDiffLines]
  rw [h]
  simp [hm]

theorem renderDiffLines_added (wd : WordDiffFn) (hl : HlFn) (lg : Option Lang)
    (line : List Char) (rest : List (List Char)) (p : ParsedLine)
    (h : parseDiffLine line = some p) (hm : p.marker = '+') :
    renderDiffLines wd hl lg (line :: rest) =
      renderAddedLine hl lg p :: renderDiffLines wd hl lg rest := by
  simp only [renderDiffLines]
  rw [h]
  simp [hm]

theorem renderDiffLines_context (wd : WordDiffFn) (hl : HlFn) (lg : Option Lang)
    (line : List Char) (rest : List (List Char)) (p : ParsedLine)
    (h : parseDiffLine line = some p) (h1 : p.marker ≠ '-') (h2 : p.marker ≠ '+') :
    renderDiffLines wd hl lg (line :: rest) =
      renderContextLine hl lg p :: renderDiffLines wd hl lg rest := by
  simp only [renderDiffLines]
  rw [h]
  simp [h1, h2]

theorem renderGroup_block (wd : WordDiffFn) (hl : HlFn) (lg : Option Lang)
    (removedRun addedRun : List Entry)
    (h : ¬(removedRun.length = 1 ∧ addedRun.length = 1)) :
    renderGroup wd hl lg removedRun addedRun =
      removedRun.map (renderRemovedBlock hl lg) ++ addedRun.map (renderAddedBlock hl lg) := by
  rcases removedRun with _ | ⟨r, _ | ⟨r2, rs⟩⟩ <;>
    rcases addedRun with _ | ⟨a, _ | ⟨a2, ads⟩⟩ <;>
      first
        | rfl
        | exact absurd ⟨rfl, rfl⟩ h

theorem renderGroup_length (wd : WordDiffFn) (hl : HlFn) (lg : Option Lang)
    (removedRun addedRun : List Entry) :
    (renderGroup wd hl lg removedRun addedRun).length =
      if removedRun.length = 1 ∧ addedRun.length = 1 then 2
      else removedRun.length + addedRun.length := by
  rcases removedRun with _ | ⟨r, _ | ⟨r2, rs⟩⟩ <;>
    rcases addedRun with _ | ⟨a, _ | ⟨a2, ads⟩⟩ <;>
      simp [renderGroup] <;> omega

/-- Claim C5: the renderer emits exactly one output line per input line:
`renderDiffLines` preserves length on every line list, and each
removed/added group contributes exactly 2 lines in intra-line mode and
removed-run length plus added-run length lines in block mode. -/
theorem c5_line_count (wd : WordDiffFn) (hl : HlFn) (lg : Option Lang)
    (lines : List (List Char)) :
    (renderDiffLines wd hl lg lines).length = lines.length ∧
    (∀ removedRun addedRun : List Entry,
      (renderGroup wd hl lg removedRun addedRun).length =
        if removedRun.length = 1 ∧ addedRun.length = 1 then 2
        else removedRun.length + addedRun.length) := by
  refine ⟨?_, renderGroup_length wd hl lg⟩
  suffices H : ∀ (n : Nat) (ls : List (List Char)), ls.length ≤ n →
      (renderDiffLines wd hl lg ls).length = ls.length from
    H lines.length lines le_rfl
  intro n
  induction n with
  | zero =>
    intro ls h
    have hnil : ls = [] := List.length_eq_zero.mp (Nat.le_zero.mp h)
    subst hnil
    simp [renderDiffLines_nil]
  | succ n ih =>
    intro ls h
    match ls with
    | [] => simp [renderDiffLines_nil]
    | line :: rest =>
      have hrest : rest.length ≤ n := by
        simp only [List.length_cons] at h
        omega
      cases hp : parseDiffLine line with
      | none =>
        rw [renderDiffLines_raw wd hl lg line rest hp]
        simp [ih rest hrest]
      | some p =>
        by_cases hm : p.marker = '-'
        · rw [renderDiffLines_removed wd hl lg line rest p hp hm]
          have h1 := collectRun_length '-' rest
          have h2 := collectRun_length '+' (collectRun '-' rest).2
          have h3 : (collectRun '+' (collectRun '-' rest).2).2.length ≤ n := by omega
          rw [List.length_append, renderGroup_length, ih _ h3]
          split
          · rename_i hcond
            simp only [List.length_cons] at hcond ⊢
            omega
          · simp only [List.length_cons]
            omega
        · by_cases hm2 : p.marker = '+'
          · rw [renderDiffLines_added wd hl lg line rest p hp hm2]
            simp [ih rest hrest]
          · rw [renderDiffLines_context wd hl lg line rest p hp hm hm2]
            simp [ih rest hrest]

/-- Claim C2: intra-line mode is chosen exactly when the removed run and the
added run both have length 1; in every other case each line renders
independently in block mode, removed lines first; in particular a run of two
removed lines followed by an added run always renders in block mode through
the whole pipeline.  The branch condition mentions only the two run
lengths. -/
theorem c2_pairing_policy (wd : WordDiffFn) (hl : HlFn) (lg : Option Lang) :
    (∀ removedRun addedRun : List Entry,
       removedRun.length = 1 → addedRun.length = 1 →
       ∃ r a, removedRun = [r] ∧ addedRun = [a] ∧
         renderGroup wd hl lg removedRun addedRun =
           [.fg .toolDiffRemoved (.app (.str (('-' :: r.lineNum) ++ [' ']))
               (renderIntraLineDiff wd (replaceTabs r.content) (replaceTabs a.content)).1),
            .fg .toolDiffAdded (.app (.str (('+' :: a.lineNum) ++ [' ']))
               (renderIntraLineDiff wd (replaceTabs r.content) (replaceTabs a.content)).2)]) ∧
    (∀ removedRun addedRun : List Entry,
       ¬(removedRun.length = 1 ∧ addedRun.length = 1) →
       renderGroup wd hl lg removedRun addedRun =
         removedRun.map (renderRemovedBlock hl lg) ++ addedRun.map (renderAddedBlock hl lg)) ∧
    (∀ (l1 l2 l3 : List Char) (rest : List (List Char)) (p1 p2 p3 : ParsedLine),
       parseDiffLine l1 = some p1 → p1.marker = '-' →
       parseDiffLine l2 = some p2 → p2.marker = '-' →
       parseDiffLine l3 = some p3 → p3.marker = '+' →
       renderDiffLines wd hl lg (l1 :: l2 :: l3 :: rest) =
         ([⟨p1.lineNum, p1.content⟩, ⟨p2.lineNum, p2.content⟩].map (renderRemovedBlock hl lg) ++
          (⟨p3.lineNum, p3.content⟩ :: (collectRun '+' rest).1).map (renderAddedBlock hl lg)) ++
         renderDiffLines wd hl lg (collectRun '+' rest).2) := by
  refine ⟨?_, renderGroup_block wd hl lg, ?_⟩
  · intro removedRun addedRun hr ha
    rw [List.length_eq_one] at hr ha
    obtain ⟨r, rfl⟩ := hr
    obtain ⟨a, rfl⟩ := ha
    exact ⟨r, a, rfl, rfl, rfl⟩
  · intro l1 l2 l3 rest p1 p2 p3 hp1 hm1 hp2 hm2 hp3 hm3
    have hc2 : collectRun '-' (l2 :: l3 :: rest) =
        (⟨p2.lineNum, p2.content⟩ :: (collectRun '-' (l3 :: rest)).1,
         (collectRun '-' (l3 :: rest)).2) := by
      simp [collectRun, hp2, hm2]
    have hc3 : collectRun '-' (l3 :: rest) = ([], l3 :: rest) := by
      simp [collectRun, hp3, hm3]
    have hc4 : collectRun '+' (l3 :: rest) =
        (⟨p3.lineNum, p3.content⟩ :: (collectRun '+' rest).1, (collectRun '+' rest).2) := by
      simp [collectRun, hp3, hm3]
    rw [renderDiffLines_removed wd hl lg l1 (l2 :: l3 :: rest) p1 hp1 hm1,
      hc2, hc3, hc4]
    rw [renderGroup_block wd hl lg _ _ (by simp)]

/-- Witness for C2: two removed lines then one added line render in block
mode through the whole pipeline. -/
theorem c2_pairing_policy_witness :
    renderDiffLines wdSwap hlEmpty none (("-1 a".data) :: ("-2 b".data) :: ("+1 c".data) :: []) =
      ([⟨"1".data, "a".data⟩, ⟨"2".data, "b".data⟩].map (renderRemovedBlock hlEmpty none) ++
       ((⟨"1".data, "c".data⟩ : Entry) :: (collectRun '+' ([] : List (List Char))).1).map
         (renderAddedBlock hlEmpty none)) ++
      renderDiffLines wdSwap hlEmpty none (collectRun '+' ([] : List (List Char))).2 :=
  (c2_pairing_policy wdSwap hlEmpty none).2.2 ("-1 a".data) ("-2 b".data) ("+1 c".data) []
    ⟨'-', "1".data, "a".data⟩ ⟨'-', "2".data, "b".data⟩ ⟨'+', "1".data, "c".data⟩
    (by decide) rfl (by decide) rfl (by decide) rfl

/-- Claim C4: the renderer is a single greedy left-to-right pass: the run
collector consumes a prefix of consecutive lines parsing with the given
marker (each collected line parses with that marker, the remainder is
exactly the input with the collected prefix dropped, and the first remaining
line no longer parses with the marker), a removed line triggers collection
of the removed run and then the following (possibly empty) added run with
the recursion continuing past both, and block-mode output keeps input
order: all removed-run lines first, then all added-run lines. -/
theorem c4_single_pass (wd : WordDiffFn) (hl : HlFn) (lg : Option Lang) :
    (∀ (c : Char) (ls : List (List Char)),
       (collectRun c ls).2 = ls.drop (collectRun c ls).1.length) ∧
    (∀ (c : Char) (ls : List (List Char)),
       (collectRun c ls).1.length + (collectRun c ls).2.length = ls.length) ∧
    (∀ (c : Char) (ls : List (List Char)),
       ∀ l ∈ ls.take (collectRun c ls).1.length,
         ∃ p, parseDiffLine l = some p ∧ p.marker = c) ∧
    (∀ (c : Char) (ls : List (List Char)) (l : List Char) (ls' : List (List Char)),
       (collectRun c ls).2 = l :: ls' → ∀ p, parseDiffLine l = some p → p.marker ≠ c) ∧
    (∀ (line : List Char) (ls : List (List Char)) (p : ParsedLine),
       parseDiffLine line = some p → p.marker = '-' →
       renderDiffLines wd hl lg (line :: ls) =
         renderGroup wd hl lg (⟨p.lineNum, p.content⟩ :: (collectRun '-' ls).1)
           (collectRun '+' (collectRun '-' ls).2).1 ++
         renderDiffLines wd hl lg (collectRun '+' (collectRun '-' ls).2).2) ∧
    (∀ removedRun addedRun : List Entry,
       ¬(removedRun.length = 1 ∧ addedRun.length = 1) →
       renderGroup wd hl lg removedRun addedRun =
         removedRun.map (renderRemovedBlock hl lg) ++ addedRun.map (renderAddedBlock hl lg)) :=
  ⟨collectRun_snd_drop, collectRun_length, collectRun_take_marker,
   collectRun_snd_head_not_marker,
   fun line ls p h hm => renderDiffLines_removed wd hl lg line ls p h hm,
   renderGroup_block wd hl lg⟩

/-- Witness for C4: the grouper advances past the removed run and the empty
added run at a concrete input. -/
theorem c4_single_pass_witness :
    renderDiffLines wdSwap hlEmpty none (("-1 a".data) :: [" 2 b".data]) =
      renderGroup wdSwap hlEmpty none
        ((⟨"1".data, "a".data⟩ : Entry) :: (collectRun '-' [" 2 b".data]).1)
        (collectRun '+' (collectRun '-' [" 2 b".data]).2).1 ++
      renderDiffLines wdSwap hlEmpty none (collectRun '+' (collectRun '-' [" 2 b".data]).2).2 :=
  (c4_single_pass wdSwap hlEmpty none).2.2.2.2.1 ("-1 a".data) [" 2 b".data]
    ⟨'-', "1".data, "a".data⟩ (by decide) rfl

/-- Claim C6: a line that does not match the diff-line pattern is not an
error: it renders as exactly one context-styled output line whose visible
text is the line unmodified, and the (total) renderer continues with the
remaining lines. -/
theorem c6_raw_passthrough (wd : WordDiffFn) (hl : HlFn) (lg : Option Lang)
    (line : List Char) (rest : List (List Char)) (h : parseDiffLine line = none) :
    renderDiffLines wd hl lg (line :: rest) =
      renderRawLine line :: renderDiffLines wd hl lg rest ∧
    renderRawLine line = .fg .toolDiffContext (.str line) ∧
    strip (renderRawLine line) = line :=
  ⟨renderDiffLines_raw wd hl lg line rest h, rfl, rfl⟩

/-- Witness for C6 at a concrete malformed line. -/
theorem c6_raw_passthrough_witness :
    renderDiffLines wdSwap hlEmpty none (("diff --git a/x b/x".data) :: []) =
      renderRawLine ("diff --git a/x b/x".data) :: renderDiffLines wdSwap hlEmpty none [] ∧
    renderRawLine ("diff --git a/x b/x".data) =
      .fg .toolDiffContext (.str ("diff --git a/x b/x".data)) ∧
    strip (renderRawLine ("diff --git a/x b/x".data)) = "diff --git a/x b/x".data :=
  c6_raw_passthrough wdSwap hlEmpty none ("diff --git a/x b/x".data) [] (by decide)

/-- Claim C9: rendering the empty input string produces the empty output
string: the single raw empty line carries no visible characters, so the
joined output strips to the empty string. -/
theorem c9_empty_input (wd : WordDiffFn) (hl : HlFn)
    (gl : List Char → Option Lang) (fp : Option (List Char)) :
    renderDiff wd hl gl fp [] = .fg .toolDiffContext (.str []) ∧
    strip (renderDiff wd hl gl fp []) = [] := by
  have h2 : parseDiffLine [] = none := rfl
  constructor
  · rw [renderDiff]
    show joinNl (renderDiffLines wd hl (resolveLang gl fp) [[]]) = _
    rw [renderDiffLines_raw _ _ _ _ _ h2, renderDiffLines_nil]
    rfl
  · rw [renderDiff]
    show strip (joinNl (renderDiffLines wd hl (resolveLang gl fp) [[]])) = _
    rw [renderDiffLines_raw _ _ _ _ _ h2, renderDiffLines_nil]
    rfl

theorem takeWhile_append_all {α : Type} {p : α → Bool} {l r : List α}
    (h : ∀ a ∈ l, p a = true) :
    (l ++ r).takeWhile p = l ++ r.takeWhile p := by
  induction l with
  | nil => rfl
  | cons x xs ih =>
    rw [List.cons_append, List.takeWhile_cons_of_pos (h x (List.mem_cons_self x xs)),
      ih (fun a ha => h a (List.mem_cons_of_mem x ha)), List.cons_append]

theorem dropWhile_append_all {α : Type} {p : α → Bool} {l r : List α}
    (h : ∀ a ∈ l, p a = true) :
    (l ++ r).dropWhile p = r.dropWhile p := by
  induction l with
  | nil => rfl
  | cons x xs ih =>
    rw [List.cons_append, List.dropWhile_cons_of_pos (h x (List.mem_cons_self x xs)),
      ih (fun a ha => h a (List.mem_cons_of_mem x ha))]

theorem mem_of_mem_dropWhile {α : Type} {p : α → Bool} {l : List α} {a : α}
    (h : a ∈ l.dropWhile p) : a ∈ l := by
  induction l with
  | nil => simp at h
  | cons x xs ih =>
    by_cases hx : p x
    · rw [List.dropWhile_cons_of_pos hx] at h
      exact List.mem_cons_of_mem x (ih h)
    · rw [List.dropWhile_cons_of_neg hx] at h
      exact h

theorem drop_takeWhile_length {α : Type} (p : α → Bool) (l : List α) :
    l.drop (l.takeWhile p).length = l.dropWhile p := by
  induction l with
  | nil => rfl
  | cons x xs ih =>
    by_cases hx : p x
    · rw [List.takeWhile_cons_of_pos hx, List.dropWhile_cons_of_pos hx,
        List.length_cons, List.drop_succ_cons, ih]
    · rw [List.takeWhile_cons_of_neg hx, List.dropWhile_cons_of_neg hx]
      rfl

theorem jsDigit_not_jsWs (c : Char) (h : jsDigit c = true) : jsWs c = false := by
  cases hw : jsWs c
  · rfl
  · exfalso
    simp only [jsWs, Bool.or_eq_true, Bool.and_eq_true, decide_eq_true_eq] at hw
    simp only [jsDigit, Bool.and_eq_true, decide_eq_true_eq] at h
    omega

theorem parseDiffLine_cons (c : Char) (s : List Char) (h : isMarkerChar c = true) :
    parseDiffLine (c :: s) =
      (match (s.dropWhile jsWs).dropWhile jsDigit with
       | sep :: content =>
         if jsWs sep && content.all jsDotOk then
           some ⟨c, s.takeWhile jsWs ++ (s.dropWhile jsWs).takeWhile jsDigit, content⟩
         else parseFallback c (s.takeWhile jsWs) s
       | [] => parseFallback c (s.takeWhile jsWs) s) := by
  simp [parseDiffLine, h]

theorem parseFallback_eq_some (c : Char) (w s : List Char) (hw : w ≠ [])
    (hok : (s.drop w.length).all jsDotOk = true) :
    parseFallback c w s = some ⟨c, w.dropLast, s.drop w.length⟩ := by
  simp [parseFallback, List.isEmpty_iff, hw, hok]

/-- Claim C10: the line parser accepts any single whitespace character as the
context marker (first character any whitespace, then a whitespace run, then
a digit run, then a separating space, then the content), and every parsed
line whose marker is neither `-` nor `+` is re-emitted with a prefix that
begins with a literal space character, whatever the original marker was. -/
theorem c10_ws_marker (wd : WordDiffFn) (hl : HlFn) (lg : Option Lang) :
    (∀ (m : Char) (ws ds content : List Char),
       jsWs m = true →
       (∀ c ∈ ws, jsWs c = true) → (∀ c ∈ ds, jsDigit c = true) →
       (∀ c ∈ ws, jsDotOk c = true) → (∀ c ∈ content, jsDotOk c = true) →
       ∃ p, parseDiffLine (m :: (ws ++ ds ++ ' ' :: content)) = some p ∧ p.marker = m) ∧
    (∀ (line : List Char) (rest : List (List Char)) (p : ParsedLine),
       parseDiffLine line = some p → p.marker ≠ '-' → p.marker ≠ '+' →
       renderDiffLines wd hl lg (line :: rest) =
         .app (.fg .toolDiffContext (.str (' ' :: p.lineNum)))
           (.app (.str [' ']) (highlightLine hl (replaceTabs p.content) lg)) ::
         renderDiffLines wd hl lg rest) := by
  constructor
  · intro m ws ds content hm hws hds hwsok hcok
    have hmark : isMarkerChar m = true := by simp [isMarkerChar, hm]
    cases ds with
    | cons d0 ds' =>
      have hdrop1 : ((ws ++ (d0 :: ds') ++ ' ' :: content).dropWhile jsWs) =
          (d0 :: ds') ++ ' ' :: content := by
        rw [List.append_assoc, dropWhile_append_all hws, List.cons_append,
          List.dropWhile_cons_of_neg]
        simp [jsDigit_not_jsWs d0 (hds d0 (List.mem_cons_self d0 ds'))]
      have hdrop2 : (((d0 :: ds') ++ ' ' :: content).dropWhile jsDigit) = ' ' :: content := by
        rw [dropWhile_append_all hds, List.dropWhile_cons_of_neg]
        decide
      rw [parseDiffLine_cons m _ hmark, hdrop1, hdrop2]
      have hcond : (jsWs ' ' && content.all jsDotOk) = true := by
        simp only [Bool.and_eq_true, List.all_eq_true]
        exact ⟨by decide, fun c hc => hcok c hc⟩
      refine ⟨⟨m, List.takeWhile jsWs (ws ++ (d0 :: ds' ++ ' ' :: content)) ++
        List.takeWhile jsDigit (d0 :: ds' ++ ' ' :: content), content⟩, ?_, rfl⟩
      simp [hcond]
    | nil =>
      have hs : (ws ++ [] ++ ' ' :: content) = ws ++ ' ' :: content := by simp
      rw [hs]
      have hdrop1 : ((ws ++ ' ' :: content).dropWhile jsWs) = content.dropWhile jsWs := by
        rw [dropWhile_append_all hws, List.dropWhile_cons_of_pos]
        decide
      have hwne : ((ws ++ ' ' :: content).takeWhile jsWs) ≠ [] := by
        rw [takeWhile_append_all hws, List.takeWhile_cons_of_pos (by decide)]
        simp
      have hfall : parseFallback m ((ws ++ ' ' :: content).takeWhile jsWs)
          (ws ++ ' ' :: content) =
          some ⟨m, ((ws ++ ' ' :: content).takeWhile jsWs).dropLast,
            (ws ++ ' ' :: content).drop
              ((ws ++ ' ' :: content).takeWhile jsWs).length⟩ := by
        refine parseFallback_eq_some m _ _ hwne ?_
        rw [drop_takeWhile_length, hdrop1, List.all_eq_true]
        intro a ha
        exact hcok a (mem_of_mem_dropWhile ha)
      rw [parseDiffLine_cons m _ hmark, hdrop1]
      cases hrest2 : ((content.dropWhile jsWs).dropWhile jsDigit) with
      | nil => exact ⟨_, hfall, rfl⟩
      | cons sep c2 =>
        by_cases hcond : (jsWs sep && c2.all jsDotOk) = true
        · refine ⟨⟨m, List.takeWhile jsWs (ws ++ ' ' :: content) ++
            List.takeWhile jsDigit (List.dropWhile jsWs content), c2⟩, ?_, rfl⟩
          simp [hcond]
        · rw [Bool.not_eq_true] at hcond
          refine ⟨⟨m, ((ws ++ ' ' :: content).takeWhile jsWs).dropLast,
            (ws ++ ' ' :: content).drop
              ((ws ++ ' ' :: content).takeWhile jsWs).length⟩, ?_, rfl⟩
          simp only [hcond, Bool.false_eq_true, if_false]
          exact hfall
  · exact fun line rest p h h1 h2 => renderDiffLines_context wd hl lg line rest p h h1 h2

/-- Witness for C10: a tab marker parses as a context line and is re-emitted
with a space-initial prefix. -/
theorem c10_ws_marker_witness :
    (∃ p, parseDiffLine ('\t' :: (("".data) ++ ("1".data) ++ ' ' :: ("foo".data))) = some p ∧
       p.marker = '\t') ∧
    renderDiffLines wdSwap hlEmpty none (("\t1 foo".data) :: []) =
      .app (.fg .toolDiffContext (.str (' ' :: "1".data)))
        (.app (.str [' ']) (highlightLine hlEmpty (replaceTabs ("foo".data)) none)) ::
      renderDiffLines wdSwap hlEmpty none [] :=
  ⟨(c10_ws_marker wdSwap hlEmpty none).1 '\t' ("".data) ("1".data) ("foo".data)
     (by decide) (by decide) (by decide) (by decide) (by decide),
   (c10_ws_marker wdSwap hlEmpty none).2 ("\t1 foo".data) [] ⟨'\t', "1".data, "foo".data⟩
     (by decide) (by decide) (by decide)⟩

/-- Claim C8: for every non-intra-line rendered line, when no language is
resolved (absent path, empty path, or resolver returning none) or the
highlighter returns an empty result, the rendered content falls back to the
raw tab-substituted content unmodified; the absence of a language is handled
totally, never as a failure. -/
theorem c8_highlight_fallback (hl : HlFn) :
    (∀ content, highlightLine hl content none = .str content) ∧
    (∀ content l, hl content l = [] → highlightLine hl content (some l) = .str content) ∧
    (∀ gl : List Char → Option Lang, resolveLang gl none = none) ∧
    (∀ (gl : List Char → Option Lang) p, gl p = none → resolveLang gl (some p) = none) ∧
    (∀ (p : ParsedLine) (lg : Option Lang),
       highlightLine hl (replaceTabs p.content) lg = .str (replaceTabs p.content) →
       renderContextLine hl lg p =
         .app (.fg .toolDiffContext (.str (' ' :: p.lineNum)))
           (.app (.str [' ']) (.str (replaceTabs p.content))) ∧
       renderAddedLine hl lg p =
         .app (.fg .toolDiffAdded (.str ('+' :: p.lineNum)))
           (.app (.str [' ']) (.str (replaceTabs p.content)))) ∧
    (∀ (e : Entry) (lg : Option Lang),
       highlightLine hl (replaceTabs e.content) lg = .str (replaceTabs e.content) →
       renderRemovedBlock hl lg e =
         .app (.fg .toolDiffRemoved (.str ('-' :: e.lineNum)))
           (.app (.str [' ']) (.str (replaceTabs e.content))) ∧
       renderAddedBlock hl lg e =
         .app (.fg .toolDiffAdded (.str ('+' :: e.lineNum)))
           (.app (.str [' ']) (.str (replaceTabs e.content)))) := by
  refine ⟨fun content => rfl, ?_, fun gl => rfl, ?_, ?_, ?_⟩
  · intro content l h
    by_cases hl0 : l.isEmpty <;> simp [highlightLine, hl0, h]
  · intro gl p h
    by_cases hp : p.isEmpty <;> simp [resolveLang, hp, h]
  · intro p lg h
    exact ⟨by rw [renderContextLine, h], by rw [renderAddedLine, h]⟩
  · intro e lg h
    exact ⟨by rw [renderRemovedBlock, h], by rw [renderAddedBlock, h]⟩

/-- Witness for C8: an empty highlighter result falls back to the plain
content. -/
theorem c8_highlight_fallback_witness :
    highlightLine hlEmpty ("x".data) (some ("ts".data)) = .str ("x".data) :=
  (c8_highlight_fallback hlEmpty).2.1 ("x".data) ("ts".data) rfl

example : parseDiffLine ("-12 foo".data) = some ⟨'-', "12".data, "foo".data⟩ := by decide
example : parseDiffLine ("+ 3 bar".data) = some ⟨'+', " 3".data, "bar".data⟩ := by decide
example : parseDiffLine (" 1 foo".data) = some ⟨' ', "1".data, "foo".data⟩ := by decide
example : parseDiffLine ("diff --git a/x b/x".data) = none := by decide
example : parseDiffLine ("- 12x".data) = some ⟨'-', "".data, "12x".data⟩ := by decide
example : parseDiffLine ("-12".data) = none := by decide
example : parseDiffLine ("".data) = none := by decide
example : parseDiffLine ("  ".data) = some ⟨' ', "".data, "".data⟩ := by decide
example : parseDiffLine ("\t1 foo".data) = some ⟨'\t', "1".data, "foo".data⟩ := by decide
example : replaceTabs ("a\\tb".data) = "a   b".data := by decide
example : replaceTabs ("a\tb".data) = "a\tb".data := by decide
